import Mathlib

/-!
Verification development for the mcp-maven-central-search repository.

The definitions below are a shallow embedding of the core modules:

* central_api.py — MavenCentralHttpClient: construction-time validation and
  the get_json retry loop with exponential backoff;
* cache.py — AsyncTTLCache (TTL + FIFO eviction) and InFlightDeduper
  (single-flight deduplication), the latter modelled as an interleaving
  transition system;
* server.py — the _compute steps of get_latest_version_core and
  get_versions_core (cache population on success only).

Python floats (monotonic timestamps, TTLs) are modelled as rationals; delays
are tracked in milliseconds (0.05 s = 50 ms); machine-level concerns such as
actual sockets are abstracted as per-attempt outcome oracles.
-/

set_option autoImplicit false
set_option linter.unusedVariables false
set_option linter.unusedSectionVars false

namespace MavenCentral

/-! ### central_api.py — MavenCentralHttpClient -/

/-- An exception raised during one HTTP attempt.  `transient` records whether
the exception is one of the httpx network-error classes enumerated in
`_should_retry` (ConnectError, ReadTimeout, WriteError, RemoteProtocolError,
ConnectTimeout, NetworkError); `id` identifies the particular exception
object so that theorems can speak about which error surfaces. -/
structure Exc where
  transient : Bool
  id : Nat
deriving DecidableEq, Repr

instance exceptDecEq {ε α : Type} [DecidableEq ε] [DecidableEq α] :
    DecidableEq (Except ε α) := fun x y =>
  match x, y with
  | .ok a, .ok b =>
    if h : a = b then .isTrue (by rw [h]) else .isFalse (fun hh => h (Except.ok.inj hh))
  | .error a, .error b =>
    if h : a = b then .isTrue (by rw [h]) else .isFalse (fun hh => h (Except.error.inj hh))
  | .ok a, .error b => .isFalse (fun hh => Except.noConfusion hh)
  | .error a, .ok b => .isFalse (fun hh => Except.noConfusion hh)

/-- Outcome of one underlying `self._client.get` attempt: either the call
raised an exception, or it produced a response with the given status code,
whose body parses (`resp.json()`) to `.ok body` or raises `.error e`. -/
inductive AttemptOutcome where
  | raised (e : Exc)
  | responded (status : Nat) (body : Except Exc Nat)
deriving DecidableEq, Repr

/-- Final outcome of `get_json`. -/
inductive GetJsonResult where
  | ok (body : Nat)
  | raisedExc (e : Exc)
  | raisedStatus (status : Nat)
  | valueError
  | runtimeError
deriving DecidableEq, Repr

/-- Observable trace of one `get_json` call: its result, the number of
underlying attempts issued, and the backoff delays (in milliseconds) slept
between attempts, in chronological order. -/
structure GetJsonTrace where
  result : GetJsonResult
  attemptsIssued : Nat
  delaysMs : List Nat
deriving DecidableEq, Repr

/-- Python `str.lower()`, as the character sequence of the string. -/
def pyLower (s : String) : List Char :=
  s.data.map Char.toLower

/-- Python `str.startswith(p)` on a character sequence. -/
def pyStartsWith (chars : List Char) (p : String) : Bool :=
  List.isPrefixOf p.data chars

/-- The guard `url.lower().startswith("https://")` used both by `__init__`
and by `get_json`. -/
def isHttpsUrl (url : String) : Bool :=
  pyStartsWith (pyLower url) ("https://")

/-- httpx `Response.is_success`: 2xx.  `raise_for_status` raises exactly when
the response is not a success. -/
def isSuccessStatus (s : Nat) : Bool :=
  decide (200 ≤ s ∧ s < 300)

/-- The retriable statuses of `_should_retry`: 429 or any 5xx. -/
def retriableStatus (s : Nat) : Bool :=
  decide (s = 429 ∨ (500 ≤ s ∧ s ≤ 599))

/-- `MavenCentralHttpClient._should_retry(exc, response)`. -/
def shouldRetry (exc : Option Exc) (respStatus : Option Nat) : Bool :=
  match exc with
  | some e => e.transient
  | none =>
    match respStatus with
    | some s => retriableStatus s
    | none => false

/-- `MavenCentralHttpClient._backoff(attempt)`: sleeps
0.05 * 2 ^ max(0, attempt - 1) seconds, here in milliseconds.  Nat
subtraction coincides with max(0, attempt - 1). -/
def backoffDelayMs (attempt : Nat) : Nat :=
  50 * 2 ^ (attempt - 1)

/-- What one iteration of the `for attempt in range(...)` body does before the
retry decision: either the call finishes (returns parsed JSON or raises a
non-retriable HTTPStatusError immediately), or it falls through to the retry
logic carrying the iteration-local `exc` and `resp` values. -/
inductive StepResult where
  | finished (r : GetJsonResult)
  | fallthrough (exc : Option Exc) (respStatus : Option Nat)
deriving DecidableEq, Repr

/-- Body of one attempt of `get_json` (central_api.py lines 184-196). -/
def attemptStep (o : AttemptOutcome) : StepResult :=
  match o with
  | .raised e => .fallthrough (some e) none
  | .responded s body =>
    if retriableStatus s then
      -- `not self._should_retry(None, resp)` is false: no raise, no return
      .fallthrough none (some s)
    else
      if isSuccessStatus s then
        -- raise_for_status passes; `return resp.json()`
        match body with
        | .ok b => .finished (.ok b)
        | .error e => .fallthrough (some e) (some s)
      else
        -- raise_for_status raises; `_should_retry(None, e.response)` is
        -- false, so the HTTPStatusError is re-raised immediately
        .finished (.raisedStatus s)

/-- The post-loop code of `get_json` (central_api.py lines 205-211), applied
to the last attempt's `exc` and `resp`. -/
def exhaust (lastExc : Option Exc) (lastStatus : Option Nat) : GetJsonResult :=
  match lastExc with
  | some e => .raisedExc e
  | none =>
    match lastStatus with
    | some s => if isSuccessStatus s then .runtimeError else .raisedStatus s
    | none => .runtimeError

/-- The attempt loop of `get_json`.  `fuel` is the number of retries still
allowed, i.e. `maxRetries - attempt`; the loop retries exactly when
`attempt < max_retries` (fuel positive) and the outcome is retriable,
sleeping `_backoff(attempt + 1)` before the next attempt. -/
def getJsonGo (oracle : Nat → AttemptOutcome) (attempt fuel : Nat) : GetJsonTrace :=
  match attemptStep (oracle attempt) with
  | .finished r => ⟨r, attempt + 1, []⟩
  | .fallthrough exc respStatus =>
    match fuel with
    | 0 => ⟨exhaust exc respStatus, attempt + 1, []⟩
    | fuel' + 1 =>
      if shouldRetry exc respStatus then
        let t := getJsonGo oracle (attempt + 1) fuel'
        ⟨t.result, t.attemptsIssued, backoffDelayMs (attempt + 1) :: t.delaysMs⟩
      else
        ⟨exhaust exc respStatus, attempt + 1, []⟩

/-- `MavenCentralHttpClient.get_json(url, params)`.  The network is abstracted
as `oracle`, giving the outcome of each attempt by index. -/
def getJson (maxRetries : Nat) (url : String) (oracle : Nat → AttemptOutcome) :
    GetJsonTrace :=
  if isHttpsUrl url then
    getJsonGo oracle 0 maxRetries
  else
    ⟨.valueError, 0, []⟩

/-- An attempt outcome is retriable when `_should_retry` classifies it so:
a transient network exception, or a response with status 429/5xx. -/
def retriableOutcome (o : AttemptOutcome) : Bool :=
  match o with
  | .raised e => e.transient
  | .responded s _ => retriableStatus s

/-! ### central_api.py — constructor validation (`__init__`) -/

/-- The Settings fields consumed by `MavenCentralHttpClient.__init__`
(config.py).  pydantic enforces `ge` bounds on the HTTP fields; the model
keeps them as plain integers and states the bounds separately. -/
structure SettingsModel where
  MAVEN_CENTRAL_BASE_URL : String
  HTTP_TIMEOUT_SECONDS : Int
  HTTP_MAX_RETRIES : Int
  HTTP_CONCURRENCY : Int
deriving DecidableEq, Repr

/-- The defaults declared in config.py. -/
def defaultSettings : SettingsModel :=
  ⟨"https://search.maven.org/solrsearch/select", 10, 2, 10⟩

/-- The configuration stored by a successfully constructed client. -/
structure ClientConfig where
  base_url : String
  timeout_seconds : Int
  max_retries : Int
  concurrency : Int
deriving DecidableEq, Repr

inductive ConfigError where
  | baseUrlNotHttps
  | concurrencyTooSmall
deriving DecidableEq, Repr

/-- `base_url or s.MAVEN_CENTRAL_BASE_URL`: Python `or` falls back on the
falsy empty string. -/
def effBaseUrl (s : SettingsModel) (base_url : Option String) : String :=
  match base_url with
  | some u => if u = "" then s.MAVEN_CENTRAL_BASE_URL else u
  | none => s.MAVEN_CENTRAL_BASE_URL

/-- `int(timeout_seconds or s.HTTP_TIMEOUT_SECONDS)`: Python `or` falls back
on the falsy integer 0. -/
def effTimeout (s : SettingsModel) (timeout_seconds : Option Int) : Int :=
  match timeout_seconds with
  | some x => if x = 0 then s.HTTP_TIMEOUT_SECONDS else x
  | none => s.HTTP_TIMEOUT_SECONDS

/-- `int(max_retries if max_retries is not None else s.HTTP_MAX_RETRIES)`:
an explicit None test, so 0 (and any negative value) is kept. -/
def effMaxRetries (s : SettingsModel) (max_retries : Option Int) : Int :=
  match max_retries with
  | some x => x
  | none => s.HTTP_MAX_RETRIES

/-- `int(concurrency or s.HTTP_CONCURRENCY)`: Python `or` falls back on the
falsy integer 0. -/
def effConcurrency (s : SettingsModel) (concurrency : Option Int) : Int :=
  match concurrency with
  | some x => if x = 0 then s.HTTP_CONCURRENCY else x
  | none => s.HTTP_CONCURRENCY

/-- `MavenCentralHttpClient.__init__` (central_api.py lines 105-132): resolve
the base URL, check HTTPS, resolve timeout and max_retries without further
validation, resolve concurrency and require it to be at least 1. -/
def clientInit (s : SettingsModel) (base_url : Option String)
    (timeout_seconds max_retries concurrency : Option Int) :
    Except ConfigError ClientConfig :=
  let b := effBaseUrl s base_url
  if isHttpsUrl b then
    let t := effTimeout s timeout_seconds
    let m := effMaxRetries s max_retries
    let c := effConcurrency s concurrency
    if c < 1 then
      .error .concurrencyTooSmall
    else
      .ok ⟨b, t, m, c⟩
  else
    .error .baseUrlNotHttps

/-! ### cache.py — AsyncTTLCache

Monotonic timestamps and TTLs (Python floats) are modelled as rationals.
The dict `self._data` is an association list with unique keys maintained by
dict-style insertion (update in place, else append); the OrderedDict
`self._order` is the list of its keys in insertion/refresh order.  Each
operation takes the value read from the injected `now_fn` explicitly. -/

variable {K : Type} {V : Type}

/-- cache.py `_Entry`: value plus absolute expiry timestamp. -/
structure Entry (V : Type) where
  value : V
  expires_at : ℚ
deriving DecidableEq, Repr

/-- The state guarded by the cache's lock, together with the construction
parameters `default_ttl` and `max_entries`. -/
structure CacheState (K V : Type) where
  default_ttl : ℚ
  max_entries : Nat
  data : List (K × Entry V)
  order : List K
deriving DecidableEq, Repr

/-- `self._data.get(key)`. -/
def dictGet [DecidableEq K] {α : Type} (l : List (K × α)) (k : K) : Option α :=
  match l with
  | [] => none
  | (k1, v) :: t => if k1 = k then some v else dictGet t k

/-- `self._data[key] = entry`: Python dict assignment updates an existing
slot in place, otherwise appends. -/
def dictInsert [DecidableEq K] {α : Type} (l : List (K × α)) (k : K) (v : α) :
    List (K × α) :=
  match l with
  | [] => [(k, v)]
  | (k1, v1) :: t => if k1 = k then (k, v) :: t else (k1, v1) :: dictInsert t k v

/-- `self._data.pop(key, None)`: remove the entry for `key` if present. -/
def dictRemove [DecidableEq K] {α : Type} (l : List (K × α)) (k : K) :
    List (K × α) :=
  match l with
  | [] => []
  | (k1, v1) :: t => if k1 = k then dictRemove t k else (k1, v1) :: dictRemove t k

/-- `del self._order[key]` (no-op when absent, matching the guarded del). -/
def listRemove [DecidableEq K] (l : List K) (k : K) : List K :=
  match l with
  | [] => []
  | x :: t => if x = k then listRemove t k else x :: listRemove t k

/-- `AsyncTTLCache._delete_unlocked`. -/
def deleteUnlocked [DecidableEq K] (st : CacheState K V) (k : K) : CacheState K V :=
  { st with data := dictRemove st.data k, order := listRemove st.order k }

/-- The `to_remove` list built by `_purge_expired_unlocked`: keys iterated in
insertion order whose entry is missing or expired (`expires_at <= now`). -/
def expiredKeys [DecidableEq K] (data : List (K × Entry V)) (now : ℚ)
    (order : List K) : List K :=
  order.filter (fun k =>
    match dictGet data k with
    | none => true
    | some e => decide (e.expires_at ≤ now))

/-- `AsyncTTLCache._purge_expired_unlocked`. -/
def purgeExpired [DecidableEq K] (st : CacheState K V) (now : ℚ) : CacheState K V :=
  if st.data.isEmpty then st
  else (expiredKeys st.data now st.order).foldl (fun s k => deleteUnlocked s k) st

/-- `AsyncTTLCache._evict_if_needed_unlocked`: while over capacity, pop the
oldest key from the order bookkeeping (break if none) and drop its entry. -/
def evictIfNeeded [DecidableEq K] (st : CacheState K V) : CacheState K V :=
  if st.max_entries < st.data.length then
    match h2 : st.order with
    | [] => st
    | oldest :: rest =>
      evictIfNeeded { st with data := dictRemove st.data oldest, order := rest }
  else st
termination_by st.order.length
decreasing_by rw [h2]; simp only [List.length_cons]; omega

/-- `AsyncTTLCache.get(key)`: purge, look up, double-check expiry (expire on
access), else return the value.  Returns the result together with the state
after the operation. -/
def cacheGet [DecidableEq K] (st : CacheState K V) (now : ℚ) (k : K) :
    Option V × CacheState K V :=
  let st1 := purgeExpired st now
  match dictGet st1.data k with
  | none => (none, st1)
  | some e =>
    if e.expires_at ≤ now then (none, deleteUnlocked st1 k)
    else (some e.value, st1)

/-- `ttl = float(ttl_seconds) if ttl_seconds is not None else self._default_ttl`. -/
def resolvedTtl (st : CacheState K V) (ttl_seconds : Option Int) : ℚ :=
  match ttl_seconds with
  | some t => (t : ℚ)
  | none => st.default_ttl

/-- The locked body of `AsyncTTLCache.set`: purge, resolve the TTL, store the
entry, refresh the key's position to the tail of the order, then evict. -/
def cacheSetBody [DecidableEq K] (st : CacheState K V) (now : ℚ) (k : K) (v : V)
    (ttl_seconds : Option Int) : CacheState K V :=
  let st1 := purgeExpired st now
  let expires_at := now + resolvedTtl st1 ttl_seconds
  let st2 : CacheState K V := { st1 with
    data := dictInsert st1.data k ⟨v, expires_at⟩,
    order := listRemove st1.order k ++ [k] }
  evictIfNeeded st2

inductive CacheError where
  | negativeTtl
  | invalidDefaultTtl
  | invalidMaxEntries
deriving DecidableEq, Repr

/-- `AsyncTTLCache.set(key, value, ttl_seconds)` including the upfront
validation `ttl_seconds >= 0` when provided. -/
def cacheSet [DecidableEq K] (st : CacheState K V) (now : ℚ) (k : K) (v : V)
    (ttl_seconds : Option Int) : Except CacheError (CacheState K V) :=
  match ttl_seconds with
  | some t =>
    if t < 0 then .error .negativeTtl
    else .ok (cacheSetBody st now k v (some t))
  | none => .ok (cacheSetBody st now k v none)

/-- `AsyncTTLCache.delete(key)`. -/
def cacheDelete [DecidableEq K] (st : CacheState K V) (k : K) : CacheState K V :=
  deleteUnlocked st k

/-- `AsyncTTLCache.clear()`. -/
def cacheClear (st : CacheState K V) : CacheState K V :=
  { st with data := [], order := [] }

/-- `AsyncTTLCache.__init__`: validates `default_ttl_seconds >= 0` and
`max_entries >= 1`, starting from empty state. -/
def cacheInit (default_ttl_seconds : Int) (max_entries : Int) :
    Except CacheError (CacheState K V) :=
  if default_ttl_seconds < 0 then .error .invalidDefaultTtl
  else if max_entries < 1 then .error .invalidMaxEntries
  else .ok ⟨(default_ttl_seconds : ℚ), max_entries.toNat, [], []⟩

/-- Order/entries synchrony: the order bookkeeping lists exactly the keys of
the entry map, each exactly once (in the insertion/refresh order that the
list itself records). -/
def OrderSync (st : CacheState K V) : Prop :=
  st.order.Nodup ∧ st.order.Perm (st.data.map Prod.fst)

/-- The cache bookkeeping invariant claimed by the specification: the order
list has each key exactly once (`Nodup` plus a permutation with the keys of
the entry map), and the entry count is within the bound. -/
def CacheWf (st : CacheState K V) : Prop :=
  OrderSync st ∧ st.data.length ≤ st.max_entries

/-! ### cache.py — InFlightDeduper

`InFlightDeduper.run` is concurrent code; it is modelled as a transition
system over one key.  The registration section of `run` (lookup under
`self._lock`, creating and registering a task when none is running) is one
atomic `enter` event, because the lock serialises it.  The underlying task
finishing (and its done-callback removing the registration) is a `complete`
event, and a waiter resuming from `await asyncio.shield(task)` with the
shared outcome is a `receive` event.  An outcome is a value or an error,
propagated identically to each waiter. -/

/-- Outcome of the shared computation: the produced value or the raised
error, delivered to every awaiter. -/
inductive SFOutcome where
  | ok (v : Nat)
  | err (e : Nat)
deriving DecidableEq, Repr

/-- An asyncio task created from `coro_factory`: its identity and, once
finished, its outcome. -/
structure SFTask where
  id : Nat
  result : Option SFOutcome
deriving DecidableEq, Repr

/-- Observable state of one key of the deduper: the registered in-flight
task (`self._inflight.get(key)`), how many times the producer has been
invoked, a fresh-task counter, which task each caller awaits, the outcomes
of finished tasks, and what each caller received. -/
structure SFState where
  inflight : Option SFTask
  producerCalls : Nat
  nextId : Nat
  joined : List (Nat × Nat)
  finished : List (Nat × SFOutcome)
  received : List (Nat × SFOutcome)
deriving DecidableEq, Repr

inductive SFEvent where
  | enter (c : Nat)
  | complete (o : SFOutcome)
  | receive (c : Nat)
deriving DecidableEq, Repr

/-- Create and register a fresh task for caller `c` (the branch of `run`
taken when no task is registered, or the registered one is done); creating
the task invokes `coro_factory`, counted by `producerCalls`. -/
def sfStartNew (st : SFState) (c : Nat) : SFState :=
  { st with
    inflight := some ⟨st.nextId, none⟩,
    nextId := st.nextId + 1,
    producerCalls := st.producerCalls + 1,
    joined := st.joined ++ [(c, st.nextId)] }

/-- One atomic event of the deduper model. -/
def sfStep (st : SFState) (e : SFEvent) : SFState :=
  match e with
  | .enter c =>
    match st.inflight with
    | some t =>
      if t.result.isSome then sfStartNew st c
      else { st with joined := st.joined ++ [(c, t.id)] }
    | none => sfStartNew st c
  | .complete o =>
    match st.inflight with
    | some t =>
      if t.result.isNone then
        { st with inflight := none, finished := st.finished ++ [(t.id, o)] }
      else st
    | none => st
  | .receive c =>
    match dictGet st.joined c with
    | some tid =>
      match dictGet st.finished tid with
      | some o => { st with received := st.received ++ [(c, o)] }
      | none => st
    | none => st

def sfInit : SFState := ⟨none, 0, 0, [], [], []⟩

/-- Run a sequence of events from the initial (idle) state. -/
def sfRun (es : List SFEvent) : SFState :=
  es.foldl sfStep sfInit

/-! ### server.py — the _compute steps of the two version tools

The version-string collaborators `is_stable` and `sort_versions`
(versioning.py) are treated as opaque parameters, as are the outcome of
`_fetch_versions` (an exception or the list of version strings) and the
clock; the embedded code is the body of `_compute` in
`get_latest_version_core` and `get_versions_core`. -/

structure MavenCoordinate where
  group_id : String
  artifact_id : String
deriving DecidableEq, Repr

structure ArtifactVersionInfo where
  version : String
deriving DecidableEq, Repr

structure LatestVersionResponse where
  coordinate : MavenCoordinate
  latest : Option ArtifactVersionInfo
  stable_filter_applied : Bool
  caveats : List String
deriving DecidableEq, Repr

structure VersionsResponse where
  coordinate : MavenCoordinate
  versions : List ArtifactVersionInfo
  stable_filter_applied : Bool
  caveats : List String
deriving DecidableEq, Repr

/-- Cache key `(group_id, artifact_id, include_prereleases, rows)`. -/
abbrev VersionsCacheKey := String × String × Bool × Nat

/-- Failure modes of `_compute`: the exception propagating out of
`_fetch_versions`, or one of the two ValueErrors raised by the checks. -/
inductive ComputeError where
  | fetchFailed (e : Exc)
  | noVersionsFound
  | allPrereleases
deriving DecidableEq, Repr

/-- `server._filter_versions`. -/
def filterVersions (is_stable : String → Bool) (versions : List String)
    (include_prereleases : Bool) : List String :=
  if include_prereleases then versions else versions.filter is_stable

/-- `server._select_latest`: None on empty input, else the last element of
the sorted list (or None when sorting returns an empty list). -/
def selectLatest (sort_versions : List String → List String)
    (versions : List String) : Option String :=
  if versions = [] then none
  else (sort_versions versions).getLast?

/-- `_compute` of `get_latest_version_core` (server.py lines 144-167): fetch,
fail on no versions, filter, fail when everything is filtered out, else build
the response, cache it under the request key, and return it.  The second
component is the `_versions_cache` state after the step. -/
def computeLatest (is_stable : String → Bool)
    (sort_versions : List String → List String)
    (fetch : Except Exc (List String)) (coord : MavenCoordinate)
    (include_prereleases : Bool) (key : VersionsCacheKey)
    (cache : CacheState VersionsCacheKey LatestVersionResponse) (now : ℚ) :
    Except ComputeError LatestVersionResponse ×
      CacheState VersionsCacheKey LatestVersionResponse :=
  match fetch with
  | .error e => (.error (.fetchFailed e), cache)
  | .ok all_versions =>
    if all_versions = [] then (.error .noVersionsFound, cache)
    else
      let filtered := filterVersions is_stable all_versions include_prereleases
      if filtered = [] then (.error .allPrereleases, cache)
      else
        let latest_str := selectLatest sort_versions filtered
        let latest := latest_str.map ArtifactVersionInfo.mk
        let resp : LatestVersionResponse :=
          ⟨coord, latest, !include_prereleases, []⟩
        (.ok resp, cacheSetBody cache now key resp none)

/-- `_compute` of `get_versions_core` (server.py lines 203-227): as above but
returning the sorted highest-to-lowest list truncated to `rows`, cached in
`_versions_list_cache`. -/
def computeVersions (is_stable : String → Bool)
    (sort_versions : List String → List String)
    (fetch : Except Exc (List String)) (coord : MavenCoordinate)
    (include_prereleases : Bool) (rows : Nat) (key : VersionsCacheKey)
    (cache : CacheState VersionsCacheKey VersionsResponse) (now : ℚ) :
    Except ComputeError VersionsResponse ×
      CacheState VersionsCacheKey VersionsResponse :=
  match fetch with
  | .error e => (.error (.fetchFailed e), cache)
  | .ok all_versions =>
    if all_versions = [] then (.error .noVersionsFound, cache)
    else
      let filtered := filterVersions is_stable all_versions include_prereleases
      if filtered = [] then (.error .allPrereleases, cache)
      else
        let ordered_low_to_high := sort_versions filtered
        let ordered_high_to_low := ordered_low_to_high.reverse
        let infos := (ordered_high_to_low.take rows).map ArtifactVersionInfo.mk
        let resp : VersionsResponse := ⟨coord, infos, !include_prereleases, []⟩
        (.ok resp, cacheSetBody cache now key resp none)

/-! ### Concrete instances used in counterexamples and witnesses -/

/-- Two transient network failures, then a 200 response with body 42. -/
def twoTransientThenSuccess : Nat → AttemptOutcome :=
  fun n => if n < 2 then .raised ⟨true, n⟩ else .responded 200 (.ok 42)

/-- A transient network exception on attempt 0, then 503 responses. -/
def transientThenServerError : Nat → AttemptOutcome :=
  fun n => if n = 0 then .raised ⟨true, 7⟩ else .responded 503 (.ok 0)

/-- Every attempt receives a 503 response. -/
def alwaysServerError : Nat → AttemptOutcome :=
  fun _ => .responded 503 (.ok 0)

/-- Every attempt receives a 404 response. -/
def alwaysNotFound : Nat → AttemptOutcome :=
  fun _ => .responded 404 (.ok 0)

/-- An empty Nat-keyed cache with default TTL 60 s and capacity 2. -/
def demoEmpty : CacheState Nat Nat := ⟨60, 2, [], []⟩

/-- `demoEmpty` after setting keys 1, 2, 3 (values 10, 20, 30) at time 0 with
the default TTL. -/
def demoFull : CacheState Nat Nat :=
  cacheSetBody (cacheSetBody (cacheSetBody demoEmpty 0 1 10 none) 0 2 20 none)
    0 3 30 none

/-- A one-entry cache (key 1, value 5, expiring at 10) used by witnesses. -/
def demoOne : CacheState Nat Nat := ⟨60, 2, [(1, ⟨5, 10⟩)], [1]⟩

/-- An empty `_versions_cache` with the server's TTL 60 s and 256 entries. -/
def demoLatestCache : CacheState VersionsCacheKey LatestVersionResponse :=
  ⟨60, 256, [], []⟩

/-- An empty `_versions_list_cache` with the server's TTL and capacity. -/
def demoVersionsCache : CacheState VersionsCacheKey VersionsResponse :=
  ⟨60, 256, [], []⟩

/-! ## Theorems

### Resilient client: the retry loop of get_json -/

theorem retriable_not_success {s : Nat} (h : retriableStatus s = true) :
    isSuccessStatus s = false := by
  simp only [retriableStatus, decide_eq_true_eq] at h
  simp only [isSuccessStatus, decide_eq_false_iff_not]
  omega

theorem getJsonGo_trace (oracle : Nat → AttemptOutcome) :
    ∀ (fuel a : Nat),
      a + 1 ≤ (getJsonGo oracle a fuel).attemptsIssued ∧
      (getJsonGo oracle a fuel).attemptsIssued ≤ a + fuel + 1 ∧
      (getJsonGo oracle a fuel).delaysMs =
        (List.range ((getJsonGo oracle a fuel).attemptsIssued - (a + 1))).map
          (fun j => backoffDelayMs (a + 1 + j)) := by
  intro fuel
  induction fuel with
  | zero =>
    intro a
    cases h : attemptStep (oracle a) with
    | finished r => simp [getJsonGo, h]
    | fallthrough exc resp => simp [getJsonGo, h]
  | succ fuel ih =>
    intro a
    cases h : attemptStep (oracle a) with
    | finished r => simp [getJsonGo, h]
    | fallthrough exc resp =>
      by_cases hr : shouldRetry exc resp = true
      · have h3 := ih (a + 1)
        have hredex : getJsonGo oracle a (fuel + 1) =
            ⟨(getJsonGo oracle (a + 1) fuel).result,
             (getJsonGo oracle (a + 1) fuel).attemptsIssued,
             backoffDelayMs (a + 1) :: (getJsonGo oracle (a + 1) fuel).delaysMs⟩ := by
          rw [getJsonGo.eq_def, h]
          simp [hr]
        obtain ⟨h31, h32, h33⟩ := h3
        simp only [hredex]
        refine ⟨by omega, by omega, ?_⟩
        have hn : (getJsonGo oracle (a + 1) fuel).attemptsIssued - (a + 1) =
            ((getJsonGo oracle (a + 1) fuel).attemptsIssued - (a + 2)) + 1 := by
          omega
        rw [hn, List.range_succ_eq_map, List.map_cons, List.map_map, h33]
        simp only [Nat.add_zero]
        congr 1
        apply List.map_congr_left
        intro j hj
        simp only [Function.comp_apply]
        congr 1
        omega
      · simp [getJsonGo, h, hr]

theorem getJson_trace_bounds (maxRetries : Nat) (url : String)
    (oracle : Nat → AttemptOutcome) :
    (getJson maxRetries url oracle).attemptsIssued ≤ maxRetries + 1 ∧
    (getJson maxRetries url oracle).delaysMs =
      (List.range ((getJson maxRetries url oracle).attemptsIssued - 1)).map
        (fun j => backoffDelayMs (j + 1)) := by
  by_cases hurl : isHttpsUrl url = true
  · have h := getJsonGo_trace oracle maxRetries 0
    simp only [getJson, hurl, if_true]
    refine ⟨by omega, ?_⟩
    rw [h.2.2]
    apply List.map_congr_left
    intro j hj
    congr 1
    omega
  · simp [getJson, hurl]

theorem getJsonGo_all_retriable (oracle : Nat → AttemptOutcome) :
    ∀ (fuel a : Nat),
      (∀ i, a ≤ i → i ≤ a + fuel → retriableOutcome (oracle i) = true) →
      (getJsonGo oracle a fuel).result =
        (match oracle (a + fuel) with
         | .raised e => .raisedExc e
         | .responded s _ => .raisedStatus s) ∧
      (getJsonGo oracle a fuel).attemptsIssued = a + fuel + 1 := by
  intro fuel
  induction fuel with
  | zero =>
    intro a hall
    have ha := hall a le_rfl (by omega)
    cases ho : oracle a with
    | raised e =>
      rw [ho] at ha
      simp [getJsonGo, attemptStep, ho, exhaust]
    | responded s body =>
      rw [ho] at ha
      simp only [retriableOutcome] at ha
      simp [getJsonGo, attemptStep, ho, ha, exhaust, retriable_not_success ha]
  | succ fuel ih =>
    intro a hall
    have ha := hall a le_rfl (by omega)
    have h3 := ih (a + 1) (fun i h1 h2 => hall i (by omega) (by omega))
    have hsum : a + 1 + fuel = a + (fuel + 1) := by omega
    rw [hsum] at h3
    cases ho : oracle a with
    | raised e =>
      rw [ho] at ha
      simp only [retriableOutcome] at ha
      have hredex : getJsonGo oracle a (fuel + 1) =
          ⟨(getJsonGo oracle (a + 1) fuel).result,
           (getJsonGo oracle (a + 1) fuel).attemptsIssued,
           backoffDelayMs (a + 1) :: (getJsonGo oracle (a + 1) fuel).delaysMs⟩ := by
        rw [getJsonGo.eq_def]
        simp [attemptStep, ho, shouldRetry, ha]
      simp only [hredex]
      exact ⟨h3.1, h3.2⟩
    | responded s body =>
      rw [ho] at ha
      simp only [retriableOutcome] at ha
      have hredex : getJsonGo oracle a (fuel + 1) =
          ⟨(getJsonGo oracle (a + 1) fuel).result,
           (getJsonGo oracle (a + 1) fuel).attemptsIssued,
           backoffDelayMs (a + 1) :: (getJsonGo oracle (a + 1) fuel).delaysMs⟩ := by
        rw [getJsonGo.eq_def]
        simp [attemptStep, ho, shouldRetry, ha]
      simp only [hredex]
      exact ⟨h3.1, h3.2⟩

/-- C3: every get_json call issues at most max_retries + 1 attempts, the
delay slept after the j-th failed attempt is backoffDelayMs (j) =
50 * 2 ^ (j - 1) ms (i.e. 0.05 s, 0.1 s, 0.2 s, ...), and a run of two
transient failures followed by a success under max_retries >= 2 performs
exactly 3 attempts, succeeds, and sleeps 50 ms then 100 ms. -/
theorem retry_budget_and_backoff_schedule :
    (∀ (maxRetries : Nat) (url : String) (oracle : Nat → AttemptOutcome),
      (getJson maxRetries url oracle).attemptsIssued ≤ maxRetries + 1 ∧
      (getJson maxRetries url oracle).delaysMs =
        (List.range ((getJson maxRetries url oracle).attemptsIssued - 1)).map
          (fun j => backoffDelayMs (j + 1))) ∧
    (∀ maxRetries : Nat, 2 ≤ maxRetries →
      getJson maxRetries ("https://repo.example") twoTransientThenSuccess =
        ⟨.ok 42, 3, [50, 100]⟩) := by
  constructor
  · exact getJson_trace_bounds
  · intro maxRetries hge
    obtain ⟨k, rfl⟩ : ∃ k, maxRetries = k + 2 := ⟨maxRetries - 2, by omega⟩
    have h2 : ∀ m : Nat, getJsonGo twoTransientThenSuccess 2 m = ⟨.ok 42, 3, []⟩ := by
      intro m
      have hstep : attemptStep (twoTransientThenSuccess 2) = .finished (.ok 42) := by
        decide
      rw [getJsonGo.eq_def, hstep]
    have h1 : ∀ m : Nat,
        getJsonGo twoTransientThenSuccess 1 (m + 1) = ⟨.ok 42, 3, [100]⟩ := by
      intro m
      have hstep : attemptStep (twoTransientThenSuccess 1) =
          .fallthrough (some ⟨true, 1⟩) none := by decide
      rw [getJsonGo.eq_def, hstep]
      norm_num [shouldRetry, h2 m, backoffDelayMs]
    have h0 : ∀ m : Nat,
        getJsonGo twoTransientThenSuccess 0 (m + 2) = ⟨.ok 42, 3, [50, 100]⟩ := by
      intro m
      have hstep : attemptStep (twoTransientThenSuccess 0) =
          .fallthrough (some ⟨true, 0⟩) none := by decide
      rw [getJsonGo.eq_def, hstep]
      norm_num [shouldRetry, h1 m, backoffDelayMs]
    have hurl : isHttpsUrl ("https://repo.example") = true := by decide
    simp only [getJson, hurl, if_true]
    exact h0 k

/-- C3 witness: at max_retries = 2 with two transient failures then success,
the call makes 3 attempts (within the budget of 3), returns the parsed body,
and sleeps 50 ms then 100 ms. -/
theorem retry_budget_and_backoff_schedule_witness :
    (getJson 2 ("https://repo.example") twoTransientThenSuccess).attemptsIssued ≤ 3 ∧
    getJson 2 ("https://repo.example") twoTransientThenSuccess =
      ⟨.ok 42, 3, [50, 100]⟩ :=
  ⟨(retry_budget_and_backoff_schedule.1 2 ("https://repo.example")
      twoTransientThenSuccess).1,
   retry_budget_and_backoff_schedule.2 2 (by decide)⟩

/-- C1 (amended): when every one of the max_retries + 1 attempts ends in a
retriable outcome, get_json surfaces the outcome of the FINAL attempt: the
final attempt's exception if the final attempt raised one, else an error for
the final response's non-success status.  (Exceptions raised by earlier
attempts are not surfaced: last_exc is overwritten on every iteration.) -/
theorem exhausted_retries_surface_final_attempt (maxRetries : Nat) (url : String)
    (oracle : Nat → AttemptOutcome) (hurl : isHttpsUrl url = true)
    (hall : ∀ i, i ≤ maxRetries → retriableOutcome (oracle i) = true) :
    (getJson maxRetries url oracle).result =
      (match oracle maxRetries with
       | .raised e => .raisedExc e
       | .responded s _ => .raisedStatus s) ∧
    (getJson maxRetries url oracle).attemptsIssued = maxRetries + 1 := by
  have h := getJsonGo_all_retriable oracle maxRetries 0
    (fun i h1 h2 => hall i (by omega))
  simp only [getJson, hurl, if_true]
  simpa using h

/-- C1 counterexample: with max_retries = 1, attempt 0 raises a transient
network exception (so an exception was encountered during the call) and
attempt 1 receives a 503 response; every attempt ends retriable, yet the call
raises from the last response's 503 status instead of surfacing the
encountered exception, contradicting the claim's "surface the last
encountered exception if one exists". -/
theorem last_error_not_surfaced_counterexample :
    retriableOutcome (transientThenServerError 0) = true ∧
    retriableOutcome (transientThenServerError 1) = true ∧
    transientThenServerError 0 = .raised ⟨true, 7⟩ ∧
    (getJson 1 ("https://repo.example") transientThenServerError).result =
      .raisedStatus 503 ∧
    (getJson 1 ("https://repo.example") transientThenServerError).result ≠
      .raisedExc ⟨true, 7⟩ := by
  decide

/-- C1 witness: two 503 responses under max_retries = 1 exhaust the budget
and raise from the final 503 status after 2 attempts. -/
theorem exhausted_retries_surface_final_attempt_witness :
    (getJson 1 ("https://repo.example") alwaysServerError).result =
      .raisedStatus 503 ∧
    (getJson 1 ("https://repo.example") alwaysServerError).attemptsIssued = 2 := by
  have h := exhausted_retries_surface_final_attempt 1 ("https://repo.example")
    alwaysServerError (by decide) (fun i hi => rfl)
  exact ⟨h.1, h.2⟩

/-- C8: a first attempt answered by a non-success status that is neither 429
nor 5xx makes the call fail immediately with that status after exactly one
attempt and no backoff sleep, for any retry budget. -/
theorem non_retriable_status_short_circuit (maxRetries : Nat) (url : String)
    (oracle : Nat → AttemptOutcome) (s : Nat) (body : Except Exc Nat)
    (hurl : isHttpsUrl url = true) (h0 : oracle 0 = .responded s body)
    (hns : isSuccessStatus s = false) (hnr : retriableStatus s = false) :
    getJson maxRetries url oracle = ⟨.raisedStatus s, 1, []⟩ := by
  have hstep : attemptStep (oracle 0) = .finished (.raisedStatus s) := by
    rw [h0]
    simp [attemptStep, hns, hnr]
  simp only [getJson, hurl, if_true]
  rw [getJsonGo.eq_def, hstep]

/-- C8 witness: a 404 on the first attempt under max_retries = 5 fails
immediately with one attempt and no delays. -/
theorem non_retriable_status_short_circuit_witness :
    getJson 5 ("https://repo.example") alwaysNotFound =
      ⟨.raisedStatus 404, 1, []⟩ :=
  non_retriable_status_short_circuit 5 ("https://repo.example") alwaysNotFound
    404 (.ok 0) (by decide) rfl (by decide) (by decide)

/-- C9: a URL that does not start (case-insensitively) with the encrypted
scheme makes get_json raise the validation error with zero attempts issued
and no backoff sleeps, regardless of the retry budget. -/
theorem plaintext_url_rejected_before_network (maxRetries : Nat) (url : String)
    (oracle : Nat → AttemptOutcome) (h : isHttpsUrl url = false) :
    getJson maxRetries url oracle = ⟨.valueError, 0, []⟩ := by
  simp [getJson, h]

/-- C9 witness: the plaintext Maven Central URL is rejected with zero
attempts. -/
theorem plaintext_url_rejected_before_network_witness :
    isHttpsUrl ("http://search.maven.org/solrsearch/select") = false ∧
    getJson 3 ("http://search.maven.org/solrsearch/select") alwaysServerError =
      ⟨.valueError, 0, []⟩ :=
  ⟨by decide,
   plaintext_url_rejected_before_network 3
     ("http://search.maven.org/solrsearch/select") alwaysServerError (by decide)⟩

/-! ### Resilient client: constructor validation -/

/-- C2 (amended): construction succeeds exactly when the effective base URL
(the override unless falsy, else the settings value) is HTTPS and the
effective concurrency (the override unless falsy 0, else the settings value)
is at least 1.  Timeout and max-retries overrides are not validated at
construction: the success condition does not depend on them. -/
theorem client_init_ok_iff (s : SettingsModel) (base_url : Option String)
    (timeout_seconds max_retries concurrency : Option Int) :
    (∃ cfg, clientInit s base_url timeout_seconds max_retries concurrency =
        .ok cfg) ↔
      (isHttpsUrl (effBaseUrl s base_url) = true ∧
        1 ≤ effConcurrency s concurrency) := by
  unfold clientInit
  by_cases h1 : isHttpsUrl (effBaseUrl s base_url) = true
  · simp only [h1, if_true]
    by_cases h2 : effConcurrency s concurrency < 1
    · simp only [h2, if_true]
      constructor
      · rintro ⟨cfg, hcfg⟩
        exact absurd hcfg (by simp)
      · rintro ⟨-, hge⟩
        omega
    · simp only [h2, if_false]
      refine ⟨fun _ => ⟨trivial, by omega⟩, fun _ => ⟨_, rfl⟩⟩
  · have h1f : isHttpsUrl (effBaseUrl s base_url) = false := by
      revert h1
      cases isHttpsUrl (effBaseUrl s base_url) <;> simp
    simp [h1f]

/-- C2 counterexample: a negative max_retries, a negative timeout, and a
zero concurrency limit are all accepted at construction (the first two are
never validated; the falsy 0 concurrency silently falls back to the settings
default of 10), contradicting the claim that such constructions fail. -/
theorem client_init_missing_validation_counterexample :
    clientInit defaultSettings none none (some (-1)) none =
      .ok ⟨"https://search.maven.org/solrsearch/select", 10, -1, 10⟩ ∧
    clientInit defaultSettings none (some (-7)) none none =
      .ok ⟨"https://search.maven.org/solrsearch/select", -7, 2, 10⟩ ∧
    clientInit defaultSettings none none none (some 0) =
      .ok ⟨"https://search.maven.org/solrsearch/select", 10, 2, 10⟩ := by
  decide

/-! ### Cache: association-list and order-list lemmas -/

section CacheLemmas

variable {K V : Type} [DecidableEq K] {α : Type}

theorem dictGet_insert_self (l : List (K × α)) (k : K) (v : α) :
    dictGet (dictInsert l k v) k = some v := by
  induction l with
  | nil => simp [dictInsert, dictGet]
  | cons p t ih =>
    obtain ⟨k1, v1⟩ := p
    by_cases h : k1 = k
    · simp [dictInsert, dictGet, h]
    · simp [dictInsert, dictGet, h, ih]

theorem keys_dictInsert_mem (l : List (K × α)) (k : K) (v : α)
    (h : k ∈ l.map Prod.fst) :
    (dictInsert l k v).map Prod.fst = l.map Prod.fst := by
  induction l with
  | nil => simp at h
  | cons p t ih =>
    obtain ⟨k1, v1⟩ := p
    by_cases hk : k1 = k
    · simp [dictInsert, hk]
    · have h2 : k ∈ t.map Prod.fst := by
        simp only [List.map_cons, List.mem_cons] at h
        rcases h with h | h
        · exact absurd h.symm hk
        · exact h
      simp [dictInsert, hk, ih h2]

theorem keys_dictInsert_notMem (l : List (K × α)) (k : K) (v : α)
    (h : k ∉ l.map Prod.fst) :
    (dictInsert l k v).map Prod.fst = l.map Prod.fst ++ [k] := by
  induction l with
  | nil => simp [dictInsert]
  | cons p t ih =>
    obtain ⟨k1, v1⟩ := p
    simp only [List.map_cons, List.mem_cons] at h
    push_neg at h
    have hk : ¬ (k1 = k) := fun he => h.1 he.symm
    simp [dictInsert, hk, ih h.2]

theorem mem_keys_dictInsert (l : List (K × α)) (k : K) (v : α) :
    k ∈ (dictInsert l k v).map Prod.fst := by
  by_cases h : k ∈ l.map Prod.fst
  · rw [keys_dictInsert_mem l k v h]
    exact h
  · rw [keys_dictInsert_notMem l k v h]
    simp

theorem dictGet_remove_self (l : List (K × α)) (k : K) :
    dictGet (dictRemove l k) k = none := by
  induction l with
  | nil => simp [dictRemove, dictGet]
  | cons p t ih =>
    obtain ⟨k1, v1⟩ := p
    by_cases h : k1 = k
    · simp [dictRemove, h, ih]
    · simp [dictRemove, dictGet, h, ih]

theorem dictGet_remove_ne (l : List (K × α)) (k0 k : K) (h : k ≠ k0) :
    dictGet (dictRemove l k0) k = dictGet l k := by
  induction l with
  | nil => simp [dictRemove]
  | cons p t ih =>
    obtain ⟨k1, v1⟩ := p
    by_cases h1 : k1 = k0
    · have h2 : ¬ (k1 = k) := fun he => h (he.symm.trans h1)
      have h3 : ¬ (k0 = k) := fun he => h he.symm
      simp [dictRemove, dictGet, h1, h2, h3, ih]
    · simp only [dictRemove, if_neg h1]
      by_cases h2 : k1 = k
      · simp [dictGet, h2]
      · simp [dictGet, h2, ih]

theorem keys_dictRemove (l : List (K × α)) (k : K) :
    (dictRemove l k).map Prod.fst = listRemove (l.map Prod.fst) k := by
  induction l with
  | nil => simp [dictRemove, listRemove]
  | cons p t ih =>
    obtain ⟨k1, v1⟩ := p
    by_cases h : k1 = k
    · simp [dictRemove, listRemove, h, ih]
    · simp [dictRemove, listRemove, h, ih]

theorem length_dictRemove_le (l : List (K × α)) (k : K) :
    (dictRemove l k).length ≤ l.length := by
  induction l with
  | nil => simp [dictRemove]
  | cons p t ih =>
    obtain ⟨k1, v1⟩ := p
    by_cases h : k1 = k
    · simp only [dictRemove, if_pos h, List.length_cons]
      omega
    · simp only [dictRemove, if_neg h, List.length_cons]
      omega

theorem mem_listRemove {l : List K} {x k : K} :
    x ∈ listRemove l k ↔ x ∈ l ∧ x ≠ k := by
  induction l with
  | nil => simp [listRemove]
  | cons a t ih =>
    simp only [listRemove]
    by_cases h : a = k
    · subst h
      rw [if_pos rfl, ih]
      simp only [List.mem_cons]
      tauto
    · rw [if_neg h]
      simp only [List.mem_cons, ih]
      constructor
      · rintro (rfl | ⟨hx, hne⟩)
        · exact ⟨Or.inl rfl, h⟩
        · exact ⟨Or.inr hx, hne⟩
      · rintro ⟨hx | hx, hne⟩
        · exact Or.inl hx
        · exact Or.inr ⟨hx, hne⟩

theorem listRemove_of_notMem {l : List K} {k : K} (h : k ∉ l) :
    listRemove l k = l := by
  induction l with
  | nil => simp [listRemove]
  | cons a t ih =>
    simp only [List.mem_cons] at h
    push_neg at h
    have ha : ¬ (a = k) := fun he => h.1 he.symm
    simp [listRemove, ha, ih h.2]

theorem nodup_listRemove {l : List K} (k : K) (h : l.Nodup) :
    (listRemove l k).Nodup := by
  induction l with
  | nil => simp [listRemove]
  | cons a t ih =>
    rw [List.nodup_cons] at h
    simp only [listRemove]
    by_cases ha : a = k
    · simp only [if_pos ha]
      exact ih h.2
    · simp only [if_neg ha]
      rw [List.nodup_cons]
      refine ⟨fun hmem => ?_, ih h.2⟩
      exact h.1 (mem_listRemove.mp hmem).1

theorem length_listRemove_nodup {l : List K} {k : K} (hnd : l.Nodup)
    (hm : k ∈ l) : (listRemove l k).length + 1 = l.length := by
  induction l with
  | nil => simp at hm
  | cons a t ih =>
    rw [List.nodup_cons] at hnd
    simp only [listRemove]
    by_cases h : a = k
    · subst h
      rw [if_pos rfl, listRemove_of_notMem hnd.1]
      rfl
    · have hkt : k ∈ t := by
        rcases List.mem_cons.mp hm with h1 | h1
        · exact absurd h1.symm h
        · exact h1
      have := ih hnd.2 hkt
      simp only [if_neg h, List.length_cons]
      omega

theorem perm_listRemove {l1 l2 : List K} (k : K) (h : l1.Perm l2) :
    (listRemove l1 k).Perm (listRemove l2 k) := by
  induction h with
  | nil => simp [listRemove]
  | cons x h ih =>
    simp only [listRemove]
    by_cases hx : x = k
    · simpa [hx] using ih
    · simpa [hx] using ih.cons x
  | swap x y l =>
    simp only [listRemove]
    by_cases hx : x = k <;> by_cases hy : y = k <;>
      simp [hx, hy]
    exact List.Perm.swap x y (listRemove l k)
  | trans h1 h2 ih1 ih2 => exact ih1.trans ih2

theorem perm_cons_listRemove {l : List K} {k : K} (hnd : l.Nodup) (hm : k ∈ l) :
    l.Perm (k :: listRemove l k) := by
  induction l with
  | nil => simp at hm
  | cons a t ih =>
    rw [List.nodup_cons] at hnd
    by_cases h : a = k
    · subst h
      simp [listRemove, listRemove_of_notMem hnd.1]
    · have hkt : k ∈ t := by
        rcases List.mem_cons.mp hm with h1 | h1
        · exact absurd h1.symm h
        · exact h1
      have hp1 : (a :: t).Perm (a :: (k :: listRemove t k)) := (ih hnd.2 hkt).cons a
      have hp2 : (a :: (k :: listRemove t k)).Perm (k :: (a :: listRemove t k)) :=
        List.Perm.swap k a (listRemove t k)
      have he : k :: (a :: listRemove t k) = k :: listRemove (a :: t) k := by
        simp [listRemove, h]
      exact he ▸ (hp1.trans hp2)

theorem orderSync_delete {st : CacheState K V} (k : K) (h : OrderSync st) :
    OrderSync (deleteUnlocked st k) := by
  obtain ⟨hnd, hperm⟩ := h
  refine ⟨nodup_listRemove k hnd, ?_⟩
  simp only [deleteUnlocked, keys_dictRemove]
  exact perm_listRemove k hperm

theorem dictGet_delete (st : CacheState K V) (k0 k : K) :
    dictGet (deleteUnlocked st k0).data k =
      if k = k0 then none else dictGet st.data k := by
  by_cases h : k = k0
  · simp [deleteUnlocked, h, dictGet_remove_self]
  · simp [deleteUnlocked, h, dictGet_remove_ne _ _ _ h]

theorem foldDelete_orderSync (ks : List K) :
    ∀ st : CacheState K V, OrderSync st →
      OrderSync (ks.foldl (fun s k => deleteUnlocked s k) st) := by
  induction ks with
  | nil => intro st h; simpa using h
  | cons k1 t ih =>
    intro st h
    exact ih _ (orderSync_delete k1 h)

theorem foldDelete_fields (ks : List K) :
    ∀ st : CacheState K V,
      (ks.foldl (fun s k => deleteUnlocked s k) st).max_entries = st.max_entries ∧
      (ks.foldl (fun s k => deleteUnlocked s k) st).default_ttl = st.default_ttl := by
  induction ks with
  | nil => intro st; exact ⟨rfl, rfl⟩
  | cons k1 t ih =>
    intro st
    exact ih (deleteUnlocked st k1)

theorem foldDelete_length_le (ks : List K) :
    ∀ st : CacheState K V,
      (ks.foldl (fun s k => deleteUnlocked s k) st).data.length ≤ st.data.length := by
  induction ks with
  | nil => intro st; simp
  | cons k1 t ih =>
    intro st
    exact le_trans (ih (deleteUnlocked st k1)) (length_dictRemove_le _ _)

theorem foldDelete_dictGet_notMem (ks : List K) (k : K) (hk : k ∉ ks) :
    ∀ st : CacheState K V,
      dictGet ((ks.foldl (fun s k => deleteUnlocked s k) st).data) k =
        dictGet st.data k := by
  induction ks with
  | nil => intro st; rfl
  | cons k1 t ih =>
    intro st
    simp only [List.mem_cons] at hk
    push_neg at hk
    rw [List.foldl_cons, ih hk.2, dictGet_delete, if_neg hk.1]

theorem foldDelete_dictGet_cases (ks : List K) (k : K) :
    ∀ st : CacheState K V,
      dictGet ((ks.foldl (fun s k => deleteUnlocked s k) st).data) k = none ∨
      dictGet ((ks.foldl (fun s k => deleteUnlocked s k) st).data) k =
        dictGet st.data k := by
  induction ks with
  | nil => intro st; exact Or.inr rfl
  | cons k1 t ih =>
    intro st
    rcases ih (deleteUnlocked st k1) with h | h
    · exact Or.inl (by rw [List.foldl_cons]; exact h)
    · rw [List.foldl_cons, h, dictGet_delete]
      by_cases hk : k = k1
      · rw [if_pos hk]
        exact Or.inl rfl
      · rw [if_neg hk]
        exact Or.inr rfl

theorem purge_orderSync {st : CacheState K V} (now : ℚ) (h : OrderSync st) :
    OrderSync (purgeExpired st now) := by
  unfold purgeExpired
  by_cases hemp : st.data.isEmpty = true
  · simpa [hemp] using h
  · simpa [hemp] using foldDelete_orderSync _ st h

theorem purge_fields (st : CacheState K V) (now : ℚ) :
    (purgeExpired st now).max_entries = st.max_entries ∧
    (purgeExpired st now).default_ttl = st.default_ttl := by
  unfold purgeExpired
  by_cases hemp : st.data.isEmpty = true
  · simp [hemp]
  · simpa [hemp] using foldDelete_fields _ st

theorem purge_length_le (st : CacheState K V) (now : ℚ) :
    (purgeExpired st now).data.length ≤ st.data.length := by
  unfold purgeExpired
  by_cases hemp : st.data.isEmpty = true
  · simp [hemp]
  · simpa [hemp] using foldDelete_length_le _ st

theorem purge_dictGet_live {st : CacheState K V} (now : ℚ) (k : K) (e : Entry V)
    (hget : dictGet st.data k = some e) (hlive : ¬ (e.expires_at ≤ now)) :
    dictGet (purgeExpired st now).data k = some e := by
  unfold purgeExpired
  by_cases hemp : st.data.isEmpty = true
  · simpa [hemp] using hget
  · have hk : k ∉ expiredKeys st.data now st.order := by
      intro hmem
      simp only [expiredKeys, List.mem_filter, hget, decide_eq_true_eq] at hmem
      exact hlive hmem.2
    simpa [hemp] using (foldDelete_dictGet_notMem _ k hk st).trans hget

theorem purge_dictGet_cases (st : CacheState K V) (now : ℚ) (k : K) :
    dictGet (purgeExpired st now).data k = none ∨
    dictGet (purgeExpired st now).data k = dictGet st.data k := by
  unfold purgeExpired
  by_cases hemp : st.data.isEmpty = true
  · simp [hemp]
  · simpa [hemp] using foldDelete_dictGet_cases _ k st

theorem evict_stop (st : CacheState K V)
    (h : ¬ st.max_entries < st.data.length) : evictIfNeeded st = st := by
  rw [evictIfNeeded.eq_def]
  simp [h]

theorem evict_step (st : CacheState K V) (oldest : K) (rest : List K)
    (hover : st.max_entries < st.data.length) (horder : st.order = oldest :: rest) :
    evictIfNeeded st =
      evictIfNeeded { st with data := dictRemove st.data oldest, order := rest } := by
  rw [evictIfNeeded.eq_def]
  simp only [if_pos hover]
  split
  next heq => rw [horder] at heq; cases heq
  next o r heq => rw [horder] at heq; cases heq; rfl

/-- Full characterisation of `_evict_if_needed_unlocked` on synchronised
states: it drops exactly the oldest `len - max_entries` keys from the front
of the order, the surviving entry count is `min len max_entries`, synchrony
is preserved, surviving entries are untouched, and the configuration fields
are unchanged. -/
theorem evict_spec (st : CacheState K V) (hnd : st.order.Nodup)
    (hperm : st.order.Perm (st.data.map Prod.fst)) :
    (evictIfNeeded st).order =
      st.order.drop (st.data.length - st.max_entries) ∧
    (evictIfNeeded st).data.length = min st.data.length st.max_entries ∧
    OrderSync (evictIfNeeded st) ∧
    (∀ k, k ∈ (evictIfNeeded st).order →
      dictGet (evictIfNeeded st).data k = dictGet st.data k) ∧
    (evictIfNeeded st).max_entries = st.max_entries ∧
    (evictIfNeeded st).default_ttl = st.default_ttl := by
  suffices h : ∀ (n : Nat) (st : CacheState K V), st.order.length = n →
      OrderSync st →
      (evictIfNeeded st).order =
        st.order.drop (st.data.length - st.max_entries) ∧
      (evictIfNeeded st).data.length = min st.data.length st.max_entries ∧
      OrderSync (evictIfNeeded st) ∧
      (∀ k, k ∈ (evictIfNeeded st).order →
        dictGet (evictIfNeeded st).data k = dictGet st.data k) ∧
      (evictIfNeeded st).max_entries = st.max_entries ∧
      (evictIfNeeded st).default_ttl = st.default_ttl by
    exact h st.order.length st rfl ⟨hnd, hperm⟩
  intro n
  induction n using Nat.strong_induction_on with
  | _ n ih =>
    intro st hlen hsync
    obtain ⟨hnd1, hperm1⟩ := hsync
    have hleneq : st.order.length = st.data.length := by
      have := hperm1.length_eq
      simpa using this
    by_cases hover : st.max_entries < st.data.length
    · cases horder : st.order with
      | nil =>
        exfalso
        rw [horder] at hleneq
        simp at hleneq
        omega
      | cons oldest rest =>
        have hknd : (st.data.map Prod.fst).Nodup := hperm1.nodup_iff.mp hnd1
        have holdmem : oldest ∈ st.data.map Prod.fst :=
          hperm1.mem_iff.mp (by rw [horder]; exact List.mem_cons_self _ _)
        have hrestnd : rest.Nodup ∧ oldest ∉ rest := by
          have := hnd1
          rw [horder, List.nodup_cons] at this
          exact ⟨this.2, this.1⟩
        have hrest_eq : listRemove st.order oldest = rest := by
          rw [horder]
          simp only [listRemove, if_pos rfl]
          exact listRemove_of_notMem hrestnd.2
        set st2 : CacheState K V :=
          { st with data := dictRemove st.data oldest, order := rest } with hst2
        have hst2perm : st2.order.Perm (st2.data.map Prod.fst) := by
          have h1 := perm_listRemove oldest hperm1
          rw [hrest_eq] at h1
          simpa [hst2, keys_dictRemove] using h1
        have hst2nd : st2.order.Nodup := hrestnd.1
        have hst2len : st2.data.length + 1 = st.data.length := by
          have h1 : (st2.data.map Prod.fst).length + 1 =
              (st.data.map Prod.fst).length := by
            simp only [hst2, keys_dictRemove]
            exact length_listRemove_nodup hknd holdmem
          simpa using h1
        have hlt : st2.order.length < n := by
          have : st.order.length = rest.length + 1 := by
            rw [horder]; rfl
          simp only [hst2]
          omega
        have hstep := evict_step st oldest rest hover horder
        have hrec := ih st2.order.length hlt st2 rfl ⟨hst2nd, hst2perm⟩
        obtain ⟨r1, r2, r3, r4, r5, r6⟩ := hrec
        rw [hstep]
        refine ⟨?_, ?_, r3, ?_, r5, r6⟩
        · have hgap : st.data.length - st.max_entries =
              (st2.data.length - st2.max_entries) + 1 := by
            have h1 := hst2len
            simp only [hst2] at h1 ⊢
            omega
          rw [r1, hgap, List.drop_succ_cons]
        · rw [r2]
          have : st2.max_entries = st.max_entries := rfl
          omega
        · intro k hk
          have hkrest : k ∈ rest := by
            have h1 : k ∈ st2.order := by
              rw [r1] at hk
              exact List.mem_of_mem_drop hk
            exact h1
          have hkne : k ≠ oldest := fun he => hrestnd.2 (he ▸ hkrest)
          rw [r4 k hk]
          simp only [hst2]
          exact dictGet_remove_ne _ _ _ hkne
    · rw [evict_stop st hover]
      refine ⟨?_, ?_, ⟨hnd1, hperm1⟩, fun k _ => rfl, rfl, rfl⟩
      · have : st.data.length - st.max_entries = 0 := by omega
        rw [this, List.drop_zero]
      · omega

theorem resolvedTtl_congr {st1 st2 : CacheState K V}
    (h : st1.default_ttl = st2.default_ttl) (ttl : Option Int) :
    resolvedTtl st1 ttl = resolvedTtl st2 ttl := by
  cases ttl <;> simp [resolvedTtl, h]

theorem cacheSetBody_spec (st : CacheState K V) (now : ℚ) (k : K) (v : V)
    (ttl : Option Int) (hsync : OrderSync st) :
    OrderSync (cacheSetBody st now k v ttl) ∧
    (cacheSetBody st now k v ttl).data.length ≤ st.max_entries ∧
    (cacheSetBody st now k v ttl).max_entries = st.max_entries ∧
    (cacheSetBody st now k v ttl).default_ttl = st.default_ttl ∧
    (1 ≤ st.max_entries →
      (cacheSetBody st now k v ttl).order.getLast? = some k ∧
      dictGet (cacheSetBody st now k v ttl).data k =
        some ⟨v, now + resolvedTtl st ttl⟩) := by
  have hsync1 : OrderSync (purgeExpired st now) := purge_orderSync now hsync
  obtain ⟨hnd1, hperm1⟩ := hsync1
  obtain ⟨hmax1, httl1⟩ := purge_fields st now
  set st1 := purgeExpired st now with hst1
  set e : Entry V := ⟨v, now + resolvedTtl st1 ttl⟩ with he
  set st2 : CacheState K V := { st1 with
    data := dictInsert st1.data k e,
    order := listRemove st1.order k ++ [k] } with hst2
  have hbody : cacheSetBody st now k v ttl = evictIfNeeded st2 := rfl
  have hnd2 : st2.order.Nodup := by
    simp only [hst2]
    rw [List.nodup_append]
    refine ⟨nodup_listRemove k hnd1, List.nodup_singleton k, ?_⟩
    intro a ha hb
    simp only [List.mem_singleton] at hb
    exact (mem_listRemove.mp ha).2 hb
  have hperm2 : st2.order.Perm (st2.data.map Prod.fst) := by
    simp only [hst2]
    by_cases hmem : k ∈ st1.data.map Prod.fst
    · rw [keys_dictInsert_mem st1.data k e hmem]
      have hordmem : k ∈ st1.order := hperm1.mem_iff.mpr hmem
      have h1 : (listRemove st1.order k ++ [k]).Perm (k :: listRemove st1.order k) :=
        List.perm_append_singleton k _
      exact h1.trans ((perm_cons_listRemove hnd1 hordmem).symm.trans hperm1)
    · rw [keys_dictInsert_notMem st1.data k e hmem]
      have hns : k ∉ st1.order := fun hc => hmem (hperm1.mem_iff.mp hc)
      rw [listRemove_of_notMem hns]
      exact hperm1.append (List.Perm.refl [k])
  have hlen2 : st2.order.length = st2.data.length := by
    simpa using hperm2.length_eq
  obtain ⟨r1, r2, r3, r4, r5, r6⟩ := evict_spec st2 hnd2 hperm2
  have hkey2 : dictGet st2.data k = some e := by
    simp only [hst2]
    exact dictGet_insert_self _ _ _
  have hmax2 : st2.max_entries = st.max_entries := by
    simp [hst2, hmax1]
  have httl2 : st2.default_ttl = st.default_ttl := by
    simp [hst2, httl1]
  refine ⟨?_, ?_, ?_, ?_, ?_⟩
  · rw [hbody]
    exact r3
  · rw [hbody, r2, hmax2]
    exact Nat.min_le_right _ _
  · rw [hbody, r5]
    exact hmax2
  · rw [hbody, r6]
    exact httl2
  · intro hmax
    have horder2 : st2.order = listRemove st1.order k ++ [k] := by
      simp [hst2]
    have hL : (listRemove st1.order k).length + 1 = st2.data.length := by
      rw [← hlen2, horder2]
      simp
    have hz : st2.data.length - st2.max_entries -
        (listRemove st1.order k).length = 0 := by
      omega
    have hordresult : (evictIfNeeded st2).order =
        (listRemove st1.order k).drop (st2.data.length - st2.max_entries) ++ [k] := by
      rw [r1, horder2, List.drop_append_eq_append_drop, hz]
      rfl
    have hkmem : k ∈ (evictIfNeeded st2).order := by
      rw [hordresult]
      simp
    refine ⟨?_, ?_⟩
    · rw [hbody, hordresult]
      exact List.getLast?_concat _
    · rw [hbody, r4 k hkmem, hkey2, he]
      rw [resolvedTtl_congr httl1]

end CacheLemmas

/-- C4: after set(k, v, ttl=t) at clock reading now0 on a well-formed cache,
get(k) returns v while the clock reads strictly less than now0 + t and
returns absent once the clock reads now0 + t or later (entries expire at
exactly expires_at, since expiry is the non-strict test expires_at <= now). -/
theorem cache_ttl_semantics {K V : Type} [DecidableEq K]
    (st st2 : CacheState K V) (k : K) (v : V) (t : Int) (now0 now1 : ℚ)
    (hwf : CacheWf st) (hmax : 1 ≤ st.max_entries) (ht : 0 ≤ t)
    (hset : cacheSet st now0 k v (some t) = .ok st2) :
    (now1 < now0 + (t : ℚ) → (cacheGet st2 now1 k).1 = some v) ∧
    (now0 + (t : ℚ) ≤ now1 → (cacheGet st2 now1 k).1 = none) := by
  have hnneg : ¬ (t < 0) := by omega
  have hbody : st2 = cacheSetBody st now0 k v (some t) := by
    have h1 : cacheSet st now0 k v (some t) =
        .ok (cacheSetBody st now0 k v (some t)) := by
      simp [cacheSet, hnneg]
    rw [h1] at hset
    exact (Except.ok.inj hset).symm
  obtain ⟨hsync2, hlen2, hmax2, httl2, hkc⟩ :=
    cacheSetBody_spec st now0 k v (some t) hwf.1
  obtain ⟨hlast, hget2⟩ := hkc hmax
  have hresolved : resolvedTtl st (some t) = (t : ℚ) := rfl
  rw [hresolved] at hget2
  rw [← hbody] at hget2
  constructor
  · intro hlt
    have hlive : ¬ ((now0 + (t : ℚ)) ≤ now1) := not_le.mpr hlt
    have h3 := purge_dictGet_live now1 k ⟨v, now0 + (t : ℚ)⟩ hget2 hlive
    simp [cacheGet, h3, hlive]
  · intro hge
    rcases purge_dictGet_cases st2 now1 k with h3 | h3
    · simp [cacheGet, h3]
    · rw [hget2] at h3
      simp [cacheGet, h3, hge]

/-- C4 witness: on the empty demo cache, set key 1 to 5 with TTL 10 at time
0; get at time 3 returns 5 and get at time 12 returns absent. -/
theorem cache_ttl_semantics_witness :
    (cacheGet (cacheSetBody demoEmpty 0 1 5 (some 10)) 3 1).1 = some 5 ∧
    (cacheGet (cacheSetBody demoEmpty 0 1 5 (some 10)) 12 1).1 = none := by
  have hwf : CacheWf demoEmpty := by
    refine ⟨⟨?_, ?_⟩, ?_⟩ <;> simp [demoEmpty]
  have h := cache_ttl_semantics demoEmpty (cacheSetBody demoEmpty 0 1 5 (some 10))
    1 5 10 0 3 hwf (by norm_num [demoEmpty]) (by norm_num) rfl
  have h2 := cache_ttl_semantics demoEmpty (cacheSetBody demoEmpty 0 1 5 (some 10))
    1 5 10 0 12 hwf (by norm_num [demoEmpty]) (by norm_num) rfl
  exact ⟨h.1 (by norm_num), h2.2 (by norm_num)⟩

/-- C5: (a) on a synchronised state, eviction removes exactly the oldest
len - max_entries keys (the front of the order) until the bound is restored
and leaves surviving entries untouched; (b) set always leaves the written key
in the most-recent (tail) position of the order; (c) with max_entries = 2,
setting the unexpired distinct keys 1, 2, 3 in order leaves 2 and 3 present
and 1 absent. -/
theorem cache_fifo_eviction_refresh :
    (∀ (K V : Type) [DecidableEq K] (st : CacheState K V), OrderSync st →
      (evictIfNeeded st).order =
        st.order.drop (st.data.length - st.max_entries) ∧
      (evictIfNeeded st).data.length = min st.data.length st.max_entries ∧
      (∀ k, k ∈ (evictIfNeeded st).order →
        dictGet (evictIfNeeded st).data k = dictGet st.data k)) ∧
    (∀ (K V : Type) [DecidableEq K] (st : CacheState K V) (now : ℚ) (k : K)
      (v : V) (ttl : Option Int), OrderSync st → 1 ≤ st.max_entries →
      (cacheSetBody st now k v ttl).order.getLast? = some k) ∧
    ((cacheGet demoFull 0 2).1 = some 20 ∧ (cacheGet demoFull 0 3).1 = some 30 ∧
      (cacheGet demoFull 0 1).1 = none) := by
  refine ⟨?_, ?_, ?_⟩
  · intro K V _ st hsync
    obtain ⟨r1, r2, _, r4, _, _⟩ := evict_spec st hsync.1 hsync.2
    exact ⟨r1, r2, r4⟩
  · intro K V _ st now k v ttl hsync hmax
    exact ((cacheSetBody_spec st now k v ttl hsync).2.2.2.2 hmax).1
  · norm_num [demoFull, demoEmpty, cacheSetBody, cacheGet, purgeExpired,
      expiredKeys, dictGet, dictInsert, dictRemove, listRemove, deleteUnlocked,
      evictIfNeeded, resolvedTtl]

/-- C5 witness: eviction on the synchronised one-entry demo cache keeps its
single entry (bound 2 not exceeded), and a set on it leaves the written key
at the most-recent position. -/
theorem cache_fifo_eviction_refresh_witness :
    (evictIfNeeded demoOne).order =
      demoOne.order.drop (demoOne.data.length - demoOne.max_entries) ∧
    (cacheSetBody demoOne 0 7 9 none).order.getLast? = some 7 := by
  have hsync : OrderSync demoOne := by
    refine ⟨?_, ?_⟩ <;> simp [demoOne]
  exact ⟨(cache_fifo_eviction_refresh.1 Nat Nat demoOne hsync).1,
    cache_fifo_eviction_refresh.2.1 Nat Nat demoOne 0 7 9 none hsync
      (by norm_num [demoOne])⟩

/-- C6: each cache operation (get, successful set, delete, clear) maps a
state satisfying the bookkeeping invariant (order lists exactly the keys of
the entry map, each exactly once, in the recorded insertion/refresh order;
entry count within max_entries) to a state satisfying it again. -/
theorem cache_ops_preserve_invariants {K V : Type} [DecidableEq K]
    (st : CacheState K V) (now : ℚ) (k : K) (v : V) (ttl : Option Int)
    (hwf : CacheWf st) :
    CacheWf (cacheGet st now k).2 ∧
    (∀ st2, cacheSet st now k v ttl = .ok st2 → CacheWf st2) ∧
    CacheWf (cacheDelete st k) ∧
    CacheWf (cacheClear st) := by
  obtain ⟨hsync, hbound⟩ := hwf
  have hsync1 := purge_orderSync now hsync
  obtain ⟨hmaxp, httlp⟩ := purge_fields st now
  have hlenp := purge_length_le st now
  have hwf1 : CacheWf (purgeExpired st now) := ⟨hsync1, by omega⟩
  refine ⟨?_, ?_, ?_, ?_⟩
  · have hwfdel : CacheWf (deleteUnlocked (purgeExpired st now) k) := by
      refine ⟨orderSync_delete k hsync1, ?_⟩
      have h1 : (deleteUnlocked (purgeExpired st now) k).data.length ≤
          (purgeExpired st now).data.length := length_dictRemove_le _ _
      have h2 : (deleteUnlocked (purgeExpired st now) k).max_entries =
          (purgeExpired st now).max_entries := rfl
      have h3 := hwf1.2
      omega
    rcases hd : dictGet (purgeExpired st now).data k with _ | e
    · simpa [cacheGet, hd] using hwf1
    · by_cases hexp : e.expires_at ≤ now
      · simpa [cacheGet, hd, hexp] using hwfdel
      · simpa [cacheGet, hd, hexp] using hwf1
  · intro st2 hset
    have hb : cacheSetBody st now k v ttl = st2 := by
      cases ttl with
      | none =>
        simpa [cacheSet] using hset
      | some t =>
        by_cases htneg : t < 0
        · simp [cacheSet, htneg] at hset
        · simpa [cacheSet, htneg] using hset
    obtain ⟨hs2, hl2, hm2, _, _⟩ := cacheSetBody_spec st now k v ttl hsync
    rw [← hb]
    exact ⟨hs2, by omega⟩
  · refine ⟨orderSync_delete k hsync, ?_⟩
    have h1 : (cacheDelete st k).data.length ≤ st.data.length :=
      length_dictRemove_le _ _
    have h2 : (cacheDelete st k).max_entries = st.max_entries := rfl
    omega
  · exact ⟨⟨by simp [cacheClear], by simp [cacheClear]⟩, by simp [cacheClear]⟩

/-- C6 witness: all four operations preserve the invariant on the one-entry
demo cache. -/
theorem cache_ops_preserve_invariants_witness :
    CacheWf (cacheGet demoOne 0 1).2 ∧ CacheWf (cacheDelete demoOne 1) ∧
    CacheWf (cacheClear demoOne) := by
  have hwf : CacheWf demoOne := by
    refine ⟨⟨?_, ?_⟩, ?_⟩ <;> simp [demoOne]
  have h := cache_ops_preserve_invariants demoOne 0 1 5 none hwf
  exact ⟨h.1, h.2.2.1, h.2.2.2⟩

/-! ### Single-flight deduplication -/

theorem sf_enters_join (cs : List Nat) :
    ∀ (st : SFState) (tid : Nat), st.inflight = some ⟨tid, none⟩ →
      (cs.map SFEvent.enter).foldl sfStep st =
        { st with joined := st.joined ++ cs.map (fun c => (c, tid)) } := by
  induction cs with
  | nil =>
    intro st tid h
    simp
  | cons c cs ih =>
    intro st tid h
    simp only [List.map_cons, List.foldl_cons]
    have hstep : sfStep st (SFEvent.enter c) =
        { st with joined := st.joined ++ [(c, tid)] } := by
      simp [sfStep, h]
    rw [hstep]
    rw [ih { st with joined := st.joined ++ [(c, tid)] } tid h]
    simp [List.append_assoc]

theorem sf_receives (ds : List Nat) (tid : Nat) (o : SFOutcome) :
    ∀ st : SFState, (∀ c, c ∈ ds → dictGet st.joined c = some tid) →
      dictGet st.finished tid = some o →
      (ds.map SFEvent.receive).foldl sfStep st =
        { st with received := st.received ++ ds.map (fun c => (c, o)) } := by
  induction ds with
  | nil =>
    intro st h1 h2
    simp
  | cons c ds ih =>
    intro st h1 h2
    simp only [List.map_cons, List.foldl_cons]
    have hstep : sfStep st (SFEvent.receive c) =
        { st with received := st.received ++ [(c, o)] } := by
      simp [sfStep, h1 c (List.mem_cons_self c ds), h2]
    rw [hstep]
    rw [ih { st with received := st.received ++ [(c, o)] }
      (fun c2 hc2 => h1 c2 (List.mem_cons_of_mem c hc2)) h2]
    simp [List.append_assoc]

theorem dictGet_map_const (l : List Nat) (c tid : Nat) (h : c ∈ l) :
    dictGet (l.map (fun x => (x, tid))) c = some tid := by
  induction l with
  | nil => simp at h
  | cons a t ih =>
    simp only [List.map_cons, dictGet]
    by_cases ha : a = c
    · rw [if_pos ha]
    · rw [if_neg ha]
      apply ih
      rcases List.mem_cons.mp h with h1 | h1
      · exact absurd h1.symm ha
      · exact h1

/-- C7: when N callers enter run(k, producer) before any computation for k
finishes, the producer task is created (and so the producer invoked) exactly
once, and after the shared task completes with outcome o, every caller
receives exactly that same outcome (value or failure alike). -/
theorem single_flight_collapse (cs ds : List Nat) (o : SFOutcome)
    (hne : cs ≠ []) (hperm : ds.Perm cs) :
    (sfRun (cs.map SFEvent.enter ++ [SFEvent.complete o] ++
        ds.map SFEvent.receive)).producerCalls = 1 ∧
    (sfRun (cs.map SFEvent.enter ++ [SFEvent.complete o] ++
        ds.map SFEvent.receive)).received = ds.map (fun c => (c, o)) := by
  obtain ⟨c0, cs0, rfl⟩ : ∃ c0 cs0, cs = c0 :: cs0 := by
    cases cs with
    | nil => exact absurd rfl hne
    | cons c0 cs0 => exact ⟨c0, cs0, rfl⟩
  have h0 : sfStep sfInit (SFEvent.enter c0) =
      ⟨some ⟨0, none⟩, 1, 1, [(c0, 0)], [], []⟩ := rfl
  have h1 : ((c0 :: cs0).map SFEvent.enter).foldl sfStep sfInit =
      ⟨some ⟨0, none⟩, 1, 1, (c0, 0) :: cs0.map (fun c => (c, 0)), [], []⟩ := by
    simp only [List.map_cons, List.foldl_cons]
    rw [h0, sf_enters_join cs0 _ 0 rfl]
    rfl
  have h2 : sfStep (⟨some ⟨0, none⟩, 1, 1,
      (c0, 0) :: cs0.map (fun c => (c, 0)), [], []⟩ : SFState)
      (SFEvent.complete o) =
      ⟨none, 1, 1, (c0, 0) :: cs0.map (fun c => (c, 0)), [(0, o)], []⟩ := rfl
  have hjoined : ∀ c, c ∈ ds →
      dictGet ((⟨none, 1, 1, (c0, 0) :: cs0.map (fun c => (c, 0)), [(0, o)],
        []⟩ : SFState).joined) c = some 0 := by
    intro c hc
    have hcs : c ∈ c0 :: cs0 := hperm.subset hc
    exact dictGet_map_const (c0 :: cs0) c 0 hcs
  have h3 := sf_receives ds 0 o
    ⟨none, 1, 1, (c0, 0) :: cs0.map (fun c => (c, 0)), [(0, o)], []⟩
    hjoined rfl
  have hassemble : sfRun ((c0 :: cs0).map SFEvent.enter ++
      [SFEvent.complete o] ++ ds.map SFEvent.receive) =
      ⟨none, 1, 1, (c0, 0) :: cs0.map (fun c => (c, 0)), [(0, o)],
        [] ++ ds.map (fun c => (c, o))⟩ := by
    rw [sfRun, List.foldl_append, List.foldl_append, h1]
    simp only [List.foldl_cons, List.foldl_nil]
    rw [h2]
    exact h3
  rw [hassemble]
  exact ⟨rfl, by simp⟩

/-- C7 witness: three callers entering before completion share one producer
invocation, and all three receive the same failure outcome. -/
theorem single_flight_collapse_witness :
    (sfRun ([1, 2, 3].map SFEvent.enter ++ [SFEvent.complete (.err 9)] ++
        [3, 1, 2].map SFEvent.receive)).producerCalls = 1 ∧
    (sfRun ([1, 2, 3].map SFEvent.enter ++ [SFEvent.complete (.err 9)] ++
        [3, 1, 2].map SFEvent.receive)).received =
      [(3, .err 9), (1, .err 9), (2, .err 9)] := by
  have h := single_flight_collapse [1, 2, 3] [3, 1, 2] (.err 9) (by decide)
    (by decide)
  exact ⟨h.1, by rw [h.2]; rfl⟩

/-! ### Server compute steps -/

/-- C10: when the compute step of get_latest_version_core or
get_versions_core fails (fetch exception, no versions, or everything
filtered out), the corresponding cache is left exactly as it was: failures
are never cached, so a later call with the same key misses the cache and
re-invokes the upstream fetch. -/
theorem compute_failure_not_cached :
    (∀ (is_stable : String → Bool) (sort_versions : List String → List String)
      (fetch : Except Exc (List String)) (coord : MavenCoordinate) (ip : Bool)
      (key : VersionsCacheKey)
      (cache : CacheState VersionsCacheKey LatestVersionResponse) (now : ℚ)
      (e : ComputeError),
      (computeLatest is_stable sort_versions fetch coord ip key cache now).1 =
        .error e →
      (computeLatest is_stable sort_versions fetch coord ip key cache now).2 =
        cache) ∧
    (∀ (is_stable : String → Bool) (sort_versions : List String → List String)
      (fetch : Except Exc (List String)) (coord : MavenCoordinate) (ip : Bool)
      (rows : Nat) (key : VersionsCacheKey)
      (cache : CacheState VersionsCacheKey VersionsResponse) (now : ℚ)
      (e : ComputeError),
      (computeVersions is_stable sort_versions fetch coord ip rows key cache
        now).1 = .error e →
      (computeVersions is_stable sort_versions fetch coord ip rows key cache
        now).2 = cache) := by
  constructor
  · intro is_stable sort_versions fetch coord ip key cache now e h
    cases fetch with
    | error e2 => rfl
    | ok all_versions =>
      by_cases h1 : all_versions = []
      · simp [computeLatest, h1]
      · by_cases h2 : filterVersions is_stable all_versions ip = []
        · simp [computeLatest, h1, h2]
        · exfalso
          simp [computeLatest, h1, h2] at h
  · intro is_stable sort_versions fetch coord ip rows key cache now e h
    cases fetch with
    | error e2 => rfl
    | ok all_versions =>
      by_cases h1 : all_versions = []
      · simp [computeVersions, h1]
      · by_cases h2 : filterVersions is_stable all_versions ip = []
        · simp [computeVersions, h1, h2]
        · exfalso
          simp [computeVersions, h1, h2] at h

/-- C10 witness: a fetch exception leaves the latest-version cache untouched,
and an empty version list leaves the versions cache untouched. -/
theorem compute_failure_not_cached_witness :
    (computeLatest (fun _ => true) id (.error ⟨false, 3⟩) ⟨"g", "a"⟩ false
      ("g", "a", false, 200) demoLatestCache 0).2 = demoLatestCache ∧
    (computeVersions (fun _ => true) id (.ok []) ⟨"g", "a"⟩ false 200
      ("g", "a", false, 200) demoVersionsCache 0).2 = demoVersionsCache :=
  ⟨compute_failure_not_cached.1 (fun _ => true) id (.error ⟨false, 3⟩)
      ⟨"g", "a"⟩ false ("g", "a", false, 200) demoLatestCache 0
      (.fetchFailed ⟨false, 3⟩) rfl,
   compute_failure_not_cached.2 (fun _ => true) id (.ok []) ⟨"g", "a"⟩ false
      200 ("g", "a", false, 200) demoVersionsCache 0 .noVersionsFound rfl⟩

end MavenCentral
